import Mathlib

/-!
Verification of the ryujin explicit time-advancement core against its
natural-language specification.

The definitions below are a shallow embedding of the C++ sources:

* `src/source/euler_aeos/riemann_solver.template.h` — the guaranteed
  maximal wavespeed estimate (`alpha`, `c`, `p_star_RS_aeos`,
  `p_star_SS_aeos`, `phi_of_p_max`, `lambda1_minus`, `lambda3_plus`,
  `compute_lambda`, `compute`);
* `src/source/euler_aeos/equation_of_state_polytropic_gas.h` and
  `src/source/euler_aeos/equation_of_state_nasg_gas.h` — the two
  equation-of-state variants;
* `src/source/time_integrator.h` — the time stepping schemes and the CFL
  recovery strategy;
* `src/grendel/postprocessor.template.h` — the two-level max/min
  reduction.

Machine floating point `Number` is embedded as the real numbers `ℝ`;
the SIMD primitive `compare_and_apply_mask<cmp>(a, b, x, y)` acts
lanewise as `if cmp a b then x else y` and is embedded that way;
`ryujin::vec_pow` is the real power function `Real.rpow`.
-/

namespace Ryujin

/-- `positive_part x = max(x, 0)`, the branch-free positive part used by
the Riemann solver (`ryujin::positive_part` from `simd.h`). -/
noncomputable def positive_part (x : ℝ) : ℝ := max x 0

/-- `negative_part x = max(-x, 0)` (`ryujin::negative_part` from `simd.h`). -/
noncomputable def negative_part (x : ℝ) : ℝ := max (-x) 0

/-- Primitive state on one side of the interface:
`{rho, u, p, gamma, a}` (density, normal velocity, pressure, effective
adiabatic exponent, sound speed), matching `primitive_type` in
`riemann_solver.h`. -/
structure PrimitiveState where
  rho : ℝ
  u : ℝ
  p : ℝ
  gamma : ℝ
  a : ℝ

/-- `RiemannSolver::alpha`: `2 a (1 - b_interp rho) / (gamma - 1)`. -/
noncomputable def alpha (b rho gamma a : ℝ) : ℝ :=
  2 * a * (1 - b * rho) / (gamma - 1)

/-- `RiemannSolver::c`: the correction coefficient.  The source computes
`sqrt ((3 gamma + 11)/(6 (gamma + 1)))`, overrides it with `1` when
`gamma <= 5/3`, and finally overrides with `0.5 * sqrt 2` when
`gamma >= 3` (the last mask wins). -/
noncomputable def c (gamma_Z : ℝ) : ℝ :=
  let radicand := (3 * gamma_Z + 11) / (6 * (gamma_Z + 1))
  let false_value := Real.sqrt radicand
  let c_of_gamma := if gamma_Z ≤ 5 / 3 then 1 else false_value
  if 3 ≤ gamma_Z then 1 / 2 * Real.sqrt 2 else c_of_gamma

/-- `gamma_min` of `p_star_RS_aeos`: the gamma associated with the smaller
pressure (`compare_and_apply_mask<less_than>(p_i, p_j, gamma_i, gamma_j)`). -/
noncomputable def gammaMin (i j : PrimitiveState) : ℝ :=
  if i.p < j.p then i.gamma else j.gamma

/-- `gamma_max` of `p_star_RS_aeos`: the gamma associated with the larger
pressure (`compare_and_apply_mask<greater_than_or_equal>`). -/
noncomputable def gammaMax (i j : PrimitiveState) : ℝ :=
  if j.p ≤ i.p then i.gamma else j.gamma

/-- `alpha_min` of `p_star_RS_aeos`. -/
noncomputable def alphaMin (b : ℝ) (i j : PrimitiveState) : ℝ :=
  if i.p < j.p then alpha b i.rho i.gamma i.a else alpha b j.rho j.gamma j.a

/-- `alpha_max` of `p_star_RS_aeos`. -/
noncomputable def alphaMax (b : ℝ) (i j : PrimitiveState) : ℝ :=
  if j.p ≤ i.p then alpha b i.rho i.gamma i.a else alpha b j.rho j.gamma j.a

/-- `exp_min = 2 gamma_min / (gamma_min - 1)` of `p_star_RS_aeos`. -/
noncomputable def expMin (i j : PrimitiveState) : ℝ :=
  2 * gammaMin i j / (gammaMin i j - 1)

/-- `exp_max = (gamma_max - 1) / (2 gamma_max)` of `p_star_RS_aeos`. -/
noncomputable def expMax (i j : PrimitiveState) : ℝ :=
  (gammaMax i j - 1) / (2 * gammaMax i j)

/-- The base `numerator / denominator + 1` of `p_star_RS_aeos`. -/
noncomputable def rsBase (b : ℝ) (i j : PrimitiveState) : ℝ :=
  (alphaMax b i j * (1 - (min i.p j.p / max i.p j.p) ^ expMax i j) -
      (j.u - i.u)) /
    (c (gammaMin i j) * alphaMin b i j) + 1

/-- `RiemannSolver::p_star_RS_aeos`. -/
noncomputable def p_star_RS_aeos (b : ℝ) (i j : PrimitiveState) : ℝ :=
  min i.p j.p * rsBase b i j ^ expMin i j

/-- `exp = (gamma_m - 1) / (2 gamma_m)` of `p_star_SS_aeos`,
with `gamma_m = min(gamma_i, gamma_j)`. -/
noncomputable def ssExp (i j : PrimitiveState) : ℝ :=
  (min i.gamma j.gamma - 1) / (2 * min i.gamma j.gamma)

/-- `alpha_hat = c(gamma) * alpha(rho, gamma, a)` of `p_star_SS_aeos`. -/
noncomputable def alphaHat (b : ℝ) (s : PrimitiveState) : ℝ :=
  c s.gamma * alpha b s.rho s.gamma s.a

/-- The base `numerator / denominator` of `p_star_SS_aeos`. -/
noncomputable def ssBase (b : ℝ) (i j : PrimitiveState) : ℝ :=
  (alphaHat b i + alphaHat b j - (j.u - i.u)) /
    (alphaHat b i * i.p ^ (-ssExp i j) + alphaHat b j * j.p ^ (-ssExp i j))

/-- `RiemannSolver::p_star_SS_aeos`. -/
noncomputable def p_star_SS_aeos (b : ℝ) (i j : PrimitiveState) : ℝ :=
  ssBase b i j ^ (1 / ssExp i j)

/-- The `radicand_inverse` of one side in `RiemannSolver::phi_of_p_max`. -/
noncomputable def phiRadicand (b : ℝ) (s : PrimitiveState) (p_max : ℝ) : ℝ :=
  1 / 2 * s.rho / (1 - b * s.rho) *
    ((s.gamma + 1) * p_max + (s.gamma - 1) * s.p)

/-- `RiemannSolver::phi_of_p_max`: the two-shock velocity-gap functional
evaluated at `p_max`. -/
noncomputable def phi_of_p_max (b : ℝ) (i j : PrimitiveState) : ℝ :=
  (max i.p j.p - i.p) / Real.sqrt (phiRadicand b i (max i.p j.p)) +
    (max i.p j.p - j.p) / Real.sqrt (phiRadicand b j (max i.p j.p)) +
    j.u - i.u

/-- The `factor = 0.5 (gamma + 1) / gamma` of the lambda bounds. -/
noncomputable def lambdaFactor (s : PrimitiveState) : ℝ :=
  1 / 2 * (s.gamma + 1) / s.gamma

/-- `RiemannSolver::lambda1_minus`. -/
noncomputable def lambda1_minus (s : PrimitiveState) (p_star : ℝ) : ℝ :=
  s.u - s.a * Real.sqrt (1 + lambdaFactor s * positive_part ((p_star - s.p) / s.p))

/-- `RiemannSolver::lambda3_plus`. -/
noncomputable def lambda3_plus (s : PrimitiveState) (p_star : ℝ) : ℝ :=
  s.u + s.a * Real.sqrt (1 + lambdaFactor s * positive_part ((p_star - s.p) / s.p))

/-- `RiemannSolver::compute_lambda`. -/
noncomputable def compute_lambda (i j : PrimitiveState) (p_star : ℝ) : ℝ :=
  max (positive_part (lambda3_plus j p_star))
    (negative_part (lambda1_minus i p_star))

/-- The star pressure `p_2` selected by `RiemannSolver::compute`:
`p_star_SS` when `phi(p_max) < 0`, else `min(p_max, p_star_RS)`. -/
noncomputable def p2 (b : ℝ) (i j : PrimitiveState) : ℝ :=
  if phi_of_p_max b i j < 0 then p_star_SS_aeos b i j
  else min (max i.p j.p) (p_star_RS_aeos b i j)

/-- `RiemannSolver::compute`. -/
noncomputable def compute (b : ℝ) (i j : PrimitiveState) : ℝ :=
  compute_lambda i j (p2 b i j)

/-- The mirror image of a primitive state: same density, pressure,
adiabatic exponent and sound speed, with the velocity sign flipped. -/
def mirror (s : PrimitiveState) : PrimitiveState :=
  ⟨s.rho, -s.u, s.p, s.gamma, s.a⟩

/-- Validity of a machine power operation: C++ `std::pow` yields NaN for
a negative base with non-integral exponent and infinity for a zero base
with negative exponent, so a valid base is positive, or zero with a
nonnegative exponent. -/
def RpowValid (x y : ℝ) : Prop := 0 < x ∨ (x = 0 ∧ 0 ≤ y)

/-- The side conditions of one evaluation of `RiemannSolver::c`: the
radicand's denominator `6 (gamma + 1)` is nonzero and the square-root
argument is nonnegative. -/
def CDefined (gamma_Z : ℝ) : Prop :=
  6 * (gamma_Z + 1) ≠ 0 ∧ 0 ≤ (3 * gamma_Z + 11) / (6 * (gamma_Z + 1))

/-- Every side condition met along one evaluation of
`RiemannSolver::compute`: each division has a nonzero denominator, each
square root a nonnegative argument, and each power a valid base, in the
order the source evaluates them (`alpha` for both states, `c`,
`phi_of_p_max`, `p_star_RS_aeos`, `p_star_SS_aeos`, and the two lambda
bounds at the selected star pressure `p2`). -/
def ComputeDefined (b : ℝ) (i j : PrimitiveState) : Prop :=
  (i.gamma - 1 ≠ 0 ∧ j.gamma - 1 ≠ 0) ∧
    (CDefined i.gamma ∧ CDefined j.gamma ∧ CDefined (gammaMin i j)) ∧
    (1 - b * i.rho ≠ 0 ∧ 1 - b * j.rho ≠ 0 ∧
      0 ≤ phiRadicand b i (max i.p j.p) ∧
      0 ≤ phiRadicand b j (max i.p j.p) ∧
      Real.sqrt (phiRadicand b i (max i.p j.p)) ≠ 0 ∧
      Real.sqrt (phiRadicand b j (max i.p j.p)) ≠ 0) ∧
    (max i.p j.p ≠ 0 ∧ gammaMin i j - 1 ≠ 0 ∧ 2 * gammaMax i j ≠ 0 ∧
      RpowValid (min i.p j.p / max i.p j.p) (expMax i j) ∧
      c (gammaMin i j) * alphaMin b i j ≠ 0 ∧
      RpowValid (rsBase b i j) (expMin i j)) ∧
    (2 * min i.gamma j.gamma ≠ 0 ∧ ssExp i j ≠ 0 ∧
      RpowValid i.p (-ssExp i j) ∧ RpowValid j.p (-ssExp i j) ∧
      alphaHat b i * i.p ^ (-ssExp i j) +
          alphaHat b j * j.p ^ (-ssExp i j) ≠ 0 ∧
      RpowValid (ssBase b i j) (1 / ssExp i j)) ∧
    (i.gamma ≠ 0 ∧ j.gamma ≠ 0 ∧ i.p ≠ 0 ∧ j.p ≠ 0 ∧
      0 ≤ 1 + lambdaFactor i * positive_part ((p2 b i j - i.p) / i.p) ∧
      0 ≤ 1 + lambdaFactor j * positive_part ((p2 b i j - j.p) / j.p))

/-- The polytropic gas equation of state
(`equation_of_state_polytropic_gas.h`): single parameter `gamma`. -/
structure PolytropicGas where
  gamma : ℝ

/-- `PolytropicGas::pressure_oracle`: `p = (gamma - 1) * internal_energy`
(the argument is the volumetric internal energy `rho * e`). -/
noncomputable def PolytropicGas.pressure_oracle
    (eos : PolytropicGas) (_rho internal_energy : ℝ) : ℝ :=
  (eos.gamma - 1) * internal_energy

/-- `PolytropicGas::sie_from_rho_p`: `e = p / (rho * (gamma - 1))`. -/
noncomputable def PolytropicGas.sie_from_rho_p
    (eos : PolytropicGas) (rho pressure : ℝ) : ℝ :=
  pressure / (rho * (eos.gamma - 1))

/-- The Noble-Abel-Stiffened gas equation of state
(`equation_of_state_nasg_gas.h`): parameters `gamma`, covolume `b`,
reference sie `q`, reference pressure `pinf`. -/
structure NobleAbleStiffenedGas where
  gamma : ℝ
  b : ℝ
  q : ℝ
  pinf : ℝ

/-- `NobleAbleStiffenedGas::pressure_oracle`:
`p = (gamma - 1) (e_vol - q rho) / (1 - b rho) - gamma pinf`. -/
noncomputable def NobleAbleStiffenedGas.pressure_oracle
    (eos : NobleAbleStiffenedGas) (rho internal_energy : ℝ) : ℝ :=
  (eos.gamma - 1) * (internal_energy - eos.q * rho) / (1 - eos.b * rho) -
    eos.gamma * eos.pinf

/-- `NobleAbleStiffenedGas::sie_from_rho_p`, exactly as written in the
source: `(p + gamma pinf) / (gamma - 1) * rho * (1 - b rho) + q`
(note: the source multiplies by `rho` here). -/
noncomputable def NobleAbleStiffenedGas.sie_from_rho_p
    (eos : NobleAbleStiffenedGas) (rho pressure : ℝ) : ℝ :=
  (pressure + eos.gamma * eos.pinf) / (eos.gamma - 1) * rho *
    (1 - eos.b * rho) + eos.q

/-- `CFLRecoveryStrategy` from `time_integrator.h`. -/
inductive CFLRecoveryStrategy
  | none
  | bang_bang_control

/-- The result of one invocation of the external hyperbolic `advance`
operation: the advanced state and the invariant-domain-violation flag. -/
structure StageResult (σ : Type) where
  U : σ
  violated : Bool

/-- Modelled from the spec: the body of `TimeIntegrator::step_*`
(`time_integrator.template.h` is not under `src/`; only the
declarations in `time_integrator.h` are).  One full multi-stage
Runge-Kutta step at a trial CFL number: the stages are executed in
sequence from the given state, each invoking the external `advance`
operation with the currently configured trial CFL, and the step reports
a violation when any stage flags one. -/
def runStep {σ : Type} (advance : ℝ → σ → StageResult σ) (cfl : ℝ) :
    ℕ → σ → StageResult σ
  | 0, U => ⟨U, false⟩
  | n + 1, U =>
    let r := advance cfl U
    let rest := runStep advance cfl n r.U
    ⟨rest.U, r.violated || rest.violated⟩

/-- The outcome of `TimeIntegrator::step`: the accepted state, the
observable violation flag, and whether a non-fatal warning was
surfaced. -/
structure StepOutcome (σ : Type) where
  U : σ
  violated : Bool
  warning : Bool

/-- Modelled from the spec: `TimeIntegrator::step` with the CFL recovery
protocol (implementation not under `src/`).  A first attempt runs the
whole multi-stage step at `cfl_max`.  Under strategy `none` its result
is accepted as-is.  Under `bang_bang_control`, if the first attempt
reports a violation, all stage results are discarded and the entire
step is restarted from the original `U` at `cfl_min`; the second
attempt's result is accepted unconditionally, with a non-fatal warning
exactly when it still reports a violation. -/
def stepWithRecovery {σ : Type} (strategy : CFLRecoveryStrategy)
    (advance : ℝ → σ → StageResult σ) (n : ℕ) (cfl_min cfl_max : ℝ)
    (U : σ) : StepOutcome σ :=
  let first := runStep advance cfl_max n U
  match strategy with
  | .none => ⟨first.U, first.violated, false⟩
  | .bang_bang_control =>
    if first.violated then
      let second := runStep advance cfl_min n U
      ⟨second.U, second.violated, second.violated⟩
    else ⟨first.U, first.violated, false⟩

/-- The time stepping schemes of `time_integrator.h`. -/
inductive TimeSteppingScheme
  | ssprk_33
  | erk_33
  | erk_43

/-- The final-stage weights of the Butcher tableaux documented on
`TimeSteppingScheme` in `time_integrator.h`, as exact rationals. -/
def finalWeights : TimeSteppingScheme → List ℚ
  | .ssprk_33 => [1 / 6, 1 / 6, 2 / 3]
  | .erk_33 => [1 / 4, 0, 3 / 4]
  | .erk_43 => [0, 2 / 3, -(1 / 3), 2 / 3]

/-- The per-thread local fold of the wavespeed/extremum reduction in
`Postprocessor::compute` (`postprocessor.template.h`): a worker folds
binary `max` over the per-node values of its subrange, starting from the
accumulator's initial value (`0.` for the max accumulators). -/
def localMax {α : Type} [LinearOrder α] (seed : α) (l : List α) : α :=
  l.foldl max seed

/-- The per-thread local fold for the min accumulators
(initial value `infinity` in the source). -/
def localMin {α : Type} [LinearOrder α] (seed : α) (l : List α) : α :=
  l.foldl min seed

/-- The shared-memory level of the reduction: each worker's local result
is merged into the shared accumulator by the compare-exchange loop
(`while (temp < r_i_max_on_subrange && !r_i_max.compare_exchange_weak(...))`),
which implements an update-if-improves, i.e. a binary `max`, applied to
the partial results in some merge order. -/
def sharedMax {α : Type} [LinearOrder α] (seed : α)
    (threads : List (List α)) : α :=
  (threads.map (localMax seed)).foldl max seed

/-- The shared-memory level for the min accumulators. -/
def sharedMin {α : Type} [LinearOrder α] (seed : α)
    (threads : List (List α)) : α :=
  (threads.map (localMin seed)).foldl min seed

/-- The full two-level reduction: per-thread folds, compare-exchange
merges within each distributed-memory partition, then the collective
`Utilities::MPI::max` across partitions. -/
def globalMax {α : Type} [LinearOrder α] (seed : α)
    (procs : List (List (List α))) : α :=
  (procs.map (sharedMax seed)).foldl max seed

/-- The full two-level reduction for the min accumulators
(`Utilities::MPI::min` across partitions). -/
def globalMin {α : Type} [LinearOrder α] (seed : α)
    (procs : List (List (List α))) : α :=
  (procs.map (sharedMin seed)).foldl min seed

/-! ## Reduction lemmas -/

theorem le_localMax {α : Type} [LinearOrder α] :
    ∀ (l : List α) (s : α), s ≤ localMax s l := by
  intro l
  induction l with
  | nil => intro s; exact le_refl s
  | cons x xs ih =>
    intro s
    exact le_trans (le_max_left s x) (ih (max s x))

theorem localMax_absorb {α : Type} [LinearOrder α] :
    ∀ (l : List α) (s t : α), t ≤ s → max s (localMax t l) = localMax s l := by
  intro l
  induction l with
  | nil => intro s t h; exact max_eq_left h
  | cons x xs ih =>
    intro s t h
    have hxL : x ≤ localMax (max t x) xs :=
      le_trans (le_max_right t x) (le_localMax xs (max t x))
    have h1 : max s (localMax (max t x) xs) =
        max (max s x) (localMax (max t x) xs) := by
      rw [max_assoc, max_eq_right hxL]
    rw [localMax, List.foldl_cons, localMax, List.foldl_cons]
    exact h1.trans (ih (max s x) (max t x) (max_le_max h (le_refl x)))

theorem sharedMax_aux {α : Type} [LinearOrder α] (seed : α) :
    ∀ (ts : List (List α)) (A : α), seed ≤ A →
      (ts.map (localMax seed)).foldl max A = localMax A ts.flatten := by
  intro ts
  induction ts with
  | nil => intro A _; rfl
  | cons l ts ih =>
    intro A hA
    rw [List.map_cons, List.foldl_cons, localMax_absorb l A seed hA,
      List.flatten_cons]
    have h2 : localMax A (l ++ ts.flatten) =
        localMax (localMax A l) ts.flatten := by
      simp only [localMax, List.foldl_append]
    rw [h2]
    exact ih (localMax A l) (le_trans hA (le_localMax l A))

theorem sharedMax_eq {α : Type} [LinearOrder α] (seed : α)
    (ts : List (List α)) : sharedMax seed ts = localMax seed ts.flatten :=
  sharedMax_aux seed ts seed (le_refl seed)

theorem flatten_map_flatten {α : Type} :
    ∀ P : List (List (List α)),
      (P.map List.flatten).flatten = P.flatten.flatten := by
  intro P
  induction P with
  | nil => rfl
  | cons l P ih =>
    rw [List.map_cons, List.flatten_cons, List.flatten_cons,
      List.flatten_append, ih]

theorem globalMax_eq {α : Type} [LinearOrder α] (seed : α)
    (P : List (List (List α))) :
    globalMax seed P = localMax seed P.flatten.flatten := by
  have h1 : P.map (sharedMax seed) = (P.map List.flatten).map (localMax seed) := by
    rw [List.map_map]
    exact List.map_congr_left fun t _ => sharedMax_eq seed t
  rw [globalMax, h1, sharedMax_aux seed (P.map List.flatten) seed (le_refl seed),
    flatten_map_flatten]

theorem localMax_perm {α : Type} [LinearOrder α] {l₁ l₂ : List α}
    (h : l₁.Perm l₂) : ∀ s : α, localMax s l₁ = localMax s l₂ := by
  induction h with
  | nil => intro s; rfl
  | cons x _ ih =>
    intro s
    rw [localMax, List.foldl_cons, localMax, List.foldl_cons]
    exact ih (max s x)
  | swap x y l =>
    intro s
    rw [localMax, List.foldl_cons, List.foldl_cons, localMax,
      List.foldl_cons, List.foldl_cons]
    have : max (max s y) x = max (max s x) y := by
      rw [max_assoc, max_comm y x, ← max_assoc]
    rw [this]
  | trans _ _ ih₁ ih₂ => intro s; rw [ih₁ s, ih₂ s]

theorem localMax_mem_or {α : Type} [LinearOrder α] :
    ∀ (l : List α) (s : α), localMax s l = s ∨ localMax s l ∈ l := by
  intro l
  induction l with
  | nil => intro s; exact Or.inl rfl
  | cons x xs ih =>
    intro s
    rw [localMax, List.foldl_cons]
    rcases ih (max s x) with h | h
    · rcases max_choice s x with hc | hc
      · exact Or.inl (by rw [localMax] at h; rw [h, hc])
      · refine Or.inr ?_
        rw [localMax] at h
        rw [h, hc]
        exact List.mem_cons_self x xs
    · exact Or.inr (List.mem_cons_of_mem x h)

theorem le_localMax_of_mem {α : Type} [LinearOrder α] :
    ∀ (l : List α) (s x : α), x ∈ l → x ≤ localMax s l := by
  intro l
  induction l with
  | nil => intro s x hx; exact absurd hx (List.not_mem_nil x)
  | cons y xs ih =>
    intro s x hx
    rcases List.mem_cons.mp hx with h | h
    · exact le_trans (le_of_eq h)
        (le_trans (le_max_right s y) (le_localMax xs (max s y)))
    · exact ih (max s y) x h

theorem localMin_le {α : Type} [LinearOrder α] :
    ∀ (l : List α) (s : α), localMin s l ≤ s := by
  intro l
  induction l with
  | nil => intro s; exact le_refl s
  | cons x xs ih =>
    intro s
    exact le_trans (ih (min s x)) (min_le_left s x)

theorem localMin_absorb {α : Type} [LinearOrder α] :
    ∀ (l : List α) (s t : α), s ≤ t → min s (localMin t l) = localMin s l := by
  intro l
  induction l with
  | nil => intro s t h; exact min_eq_left h
  | cons x xs ih =>
    intro s t h
    have hxL : localMin (min t x) xs ≤ x :=
      le_trans (localMin_le xs (min t x)) (min_le_right t x)
    have h1 : min s (localMin (min t x) xs) =
        min (min s x) (localMin (min t x) xs) := by
      rw [min_assoc, min_eq_right hxL]
    rw [localMin, List.foldl_cons, localMin, List.foldl_cons]
    exact h1.trans (ih (min s x) (min t x) (min_le_min h (le_refl x)))

theorem sharedMin_aux {α : Type} [LinearOrder α] (seed : α) :
    ∀ (ts : List (List α)) (A : α), A ≤ seed →
      (ts.map (localMin seed)).foldl min A = localMin A ts.flatten := by
  intro ts
  induction ts with
  | nil => intro A _; rfl
  | cons l ts ih =>
    intro A hA
    rw [List.map_cons, List.foldl_cons, localMin_absorb l A seed hA,
      List.flatten_cons]
    have h2 : localMin A (l ++ ts.flatten) =
        localMin (localMin A l) ts.flatten := by
      simp only [localMin, List.foldl_append]
    rw [h2]
    exact ih (localMin A l) (le_trans (localMin_le l A) hA)

theorem globalMin_eq {α : Type} [LinearOrder α] (seed : α)
    (P : List (List (List α))) :
    globalMin seed P = localMin seed P.flatten.flatten := by
  have h1 : P.map (sharedMin seed) = (P.map List.flatten).map (localMin seed) := by
    rw [List.map_map]
    refine List.map_congr_left fun t _ => ?_
    exact sharedMin_aux seed t seed (le_refl seed)
  rw [globalMin, h1, sharedMin_aux seed (P.map List.flatten) seed (le_refl seed),
    flatten_map_flatten]

theorem localMin_perm {α : Type} [LinearOrder α] {l₁ l₂ : List α}
    (h : l₁.Perm l₂) : ∀ s : α, localMin s l₁ = localMin s l₂ := by
  induction h with
  | nil => intro s; rfl
  | cons x _ ih =>
    intro s
    rw [localMin, List.foldl_cons, localMin, List.foldl_cons]
    exact ih (min s x)
  | swap x y l =>
    intro s
    rw [localMin, List.foldl_cons, List.foldl_cons, localMin,
      List.foldl_cons, List.foldl_cons]
    have : min (min s y) x = min (min s x) y := by
      rw [min_assoc, min_comm y x, ← min_assoc]
    rw [this]
  | trans _ _ ih₁ ih₂ => intro s; rw [ih₁ s, ih₂ s]

theorem localMin_mem_or {α : Type} [LinearOrder α] :
    ∀ (l : List α) (s : α), localMin s l = s ∨ localMin s l ∈ l := by
  intro l
  induction l with
  | nil => intro s; exact Or.inl rfl
  | cons x xs ih =>
    intro s
    rw [localMin, List.foldl_cons]
    rcases ih (min s x) with h | h
    · rcases min_choice s x with hc | hc
      · exact Or.inl (by rw [localMin] at h; rw [h, hc])
      · refine Or.inr ?_
        rw [localMin] at h
        rw [h, hc]
        exact List.mem_cons_self x xs
    · exact Or.inr (List.mem_cons_of_mem x h)

theorem localMin_le_of_mem {α : Type} [LinearOrder α] :
    ∀ (l : List α) (s x : α), x ∈ l → localMin s l ≤ x := by
  intro l
  induction l with
  | nil => intro s x hx; exact absurd hx (List.not_mem_nil x)
  | cons y xs ih =>
    intro s x hx
    rcases List.mem_cons.mp hx with h | h
    · exact le_trans
        (le_trans (localMin_le xs (min s y)) (min_le_right s y)) (ge_of_eq h)
    · exact ih (min s y) x h

/-! ## Riemann solver helper lemmas -/

theorem lambdaFactor_eq (s : PrimitiveState) :
    lambdaFactor s = (s.gamma + 1) / (2 * s.gamma) := by
  rw [lambdaFactor,
    show (1 : ℝ) / 2 * (s.gamma + 1) = (s.gamma + 1) / 2 from by ring,
    div_div]

theorem sqrt_two_halves : 1 / 2 * Real.sqrt 2 = Real.sqrt (1 / 2) := by
  have h2 : Real.sqrt 2 * Real.sqrt 2 = 2 := Real.mul_self_sqrt (by norm_num)
  have h3 : Real.sqrt (1 / 2) = Real.sqrt ((1 / 2 * Real.sqrt 2) ^ 2) := by
    rw [show (1 / 2 * Real.sqrt 2) ^ 2 = 1 / 2 from by nlinarith [h2]]
  rw [h3, Real.sqrt_sq (by positivity)]

theorem c_pos {g : ℝ} (hg : 1 < g) : 0 < c g := by
  simp only [c]
  split
  · positivity
  · split
    · norm_num
    · exact Real.sqrt_pos.mpr (div_pos (by linarith) (by linarith))

theorem alpha_pos {b rho g a : ℝ} (ha : 0 < a) (hb : b * rho < 1)
    (hg : 1 < g) : 0 < alpha b rho g a := by
  apply div_pos (by nlinarith) (by linarith)

theorem gammaMin_cases (i j : PrimitiveState) :
    gammaMin i j = i.gamma ∨ gammaMin i j = j.gamma := by
  unfold gammaMin
  split
  · exact Or.inl rfl
  · exact Or.inr rfl

theorem gammaMax_cases (i j : PrimitiveState) :
    gammaMax i j = i.gamma ∨ gammaMax i j = j.gamma := by
  unfold gammaMax
  split
  · exact Or.inl rfl
  · exact Or.inr rfl

theorem one_lt_gammaMin {i j : PrimitiveState} (hgi : 1 < i.gamma)
    (hgj : 1 < j.gamma) : 1 < gammaMin i j := by
  rcases gammaMin_cases i j with h | h <;> rw [h] <;> assumption

theorem one_lt_gammaMax {i j : PrimitiveState} (hgi : 1 < i.gamma)
    (hgj : 1 < j.gamma) : 1 < gammaMax i j := by
  rcases gammaMax_cases i j with h | h <;> rw [h] <;> assumption

theorem alphaMin_pos {b : ℝ} {i j : PrimitiveState} (hai : 0 < i.a)
    (haj : 0 < j.a) (hbi : b * i.rho < 1) (hbj : b * j.rho < 1)
    (hgi : 1 < i.gamma) (hgj : 1 < j.gamma) : 0 < alphaMin b i j := by
  unfold alphaMin
  split
  · exact alpha_pos hai hbi hgi
  · exact alpha_pos haj hbj hgj

theorem alphaMax_pos {b : ℝ} {i j : PrimitiveState} (hai : 0 < i.a)
    (haj : 0 < j.a) (hbi : b * i.rho < 1) (hbj : b * j.rho < 1)
    (hgi : 1 < i.gamma) (hgj : 1 < j.gamma) : 0 < alphaMax b i j := by
  unfold alphaMax
  split
  · exact alpha_pos hai hbi hgi
  · exact alpha_pos haj hbj hgj

theorem alphaHat_pos {b : ℝ} {s : PrimitiveState} (ha : 0 < s.a)
    (hb : b * s.rho < 1) (hg : 1 < s.gamma) : 0 < alphaHat b s :=
  mul_pos (c_pos hg) (alpha_pos ha hb hg)

theorem cDefined_of_lt {g : ℝ} (hg : 1 < g) : CDefined g :=
  ⟨ne_of_gt (by linarith), le_of_lt (div_pos (by linarith) (by linarith))⟩

theorem phiRadicand_pos {b : ℝ} {s : PrimitiveState} {pm : ℝ}
    (hrho : 0 < s.rho) (hb : b * s.rho < 1) (hg : 1 < s.gamma)
    (hp : 0 < s.p) (hpm : 0 < pm) : 0 < phiRadicand b s pm := by
  unfold phiRadicand
  apply mul_pos (div_pos (by linarith) (by linarith))
  nlinarith [mul_pos (show (0 : ℝ) < s.gamma + 1 by linarith) hpm,
    mul_nonneg (show (0 : ℝ) ≤ s.gamma - 1 by linarith) hp.le]

theorem positive_part_nonneg (x : ℝ) : 0 ≤ positive_part x :=
  le_max_right x 0

theorem ssExp_pos {i j : PrimitiveState} (hgi : 1 < i.gamma)
    (hgj : 1 < j.gamma) : 0 < ssExp i j := by
  have hm : 1 < min i.gamma j.gamma := lt_min hgi hgj
  exact div_pos (by linarith) (by linarith)

theorem rsBase_ge_one {b : ℝ} {i j : PrimitiveState} (hpi : 0 < i.p)
    (hpj : 0 < j.p) (hai : 0 < i.a) (haj : 0 < j.a) (hbi : b * i.rho < 1)
    (hbj : b * j.rho < 1) (hgi : 1 < i.gamma) (hgj : 1 < j.gamma)
    (hu : j.u - i.u ≤ 0) : 1 ≤ rsBase b i j := by
  have hgmax := one_lt_gammaMax hgi hgj
  have ht : (min i.p j.p / max i.p j.p) ^ expMax i j ≤ 1 := by
    apply Real.rpow_le_one
    · exact div_nonneg (le_of_lt (lt_min hpi hpj))
        (le_of_lt (lt_max_of_lt_left hpi))
    · exact div_le_one_of_le₀ min_le_max (le_of_lt (lt_max_of_lt_left hpi))
    · exact div_nonneg (by linarith) (by linarith)
  have hnum : 0 ≤ alphaMax b i j *
      (1 - (min i.p j.p / max i.p j.p) ^ expMax i j) - (j.u - i.u) := by
    have h1 := alphaMax_pos hai haj hbi hbj hgi hgj
    nlinarith
  have hden : 0 < c (gammaMin i j) * alphaMin b i j :=
    mul_pos (c_pos (one_lt_gammaMin hgi hgj))
      (alphaMin_pos hai haj hbi hbj hgi hgj)
  have := div_nonneg hnum hden.le
  unfold rsBase
  linarith

theorem ssBase_pos {b : ℝ} {i j : PrimitiveState} (hpi : 0 < i.p)
    (hpj : 0 < j.p) (hai : 0 < i.a) (haj : 0 < j.a) (hbi : b * i.rho < 1)
    (hbj : b * j.rho < 1) (hgi : 1 < i.gamma) (hgj : 1 < j.gamma)
    (hu : j.u - i.u ≤ 0) : 0 < ssBase b i j := by
  have hhi := alphaHat_pos hai hbi hgi
  have hhj := alphaHat_pos haj hbj hgj
  apply div_pos (by linarith)
  exact add_pos (mul_pos hhi (Real.rpow_pos_of_pos hpi _))
    (mul_pos hhj (Real.rpow_pos_of_pos hpj _))

theorem lambda_radicand_nonneg {s : PrimitiveState} (hg : 1 < s.gamma)
    (x : ℝ) : 0 ≤ 1 + lambdaFactor s * positive_part x := by
  have hf : 0 < lambdaFactor s := div_pos (by linarith) (by linarith)
  have := mul_nonneg hf.le (positive_part_nonneg x)
  linarith

theorem mirror_rho (s : PrimitiveState) : (mirror s).rho = s.rho := rfl

theorem mirror_u (s : PrimitiveState) : (mirror s).u = -s.u := rfl

theorem mirror_p (s : PrimitiveState) : (mirror s).p = s.p := rfl

theorem mirror_gamma (s : PrimitiveState) : (mirror s).gamma = s.gamma := rfl

theorem mirror_a (s : PrimitiveState) : (mirror s).a = s.a := rfl

theorem mirror_mirror (s : PrimitiveState) : mirror (mirror s) = s := by
  simp [mirror]

theorem phi_of_p_max_mirror (b : ℝ) (i j : PrimitiveState) :
    phi_of_p_max b (mirror j) (mirror i) = phi_of_p_max b i j := by
  simp only [phi_of_p_max, phiRadicand, mirror_rho, mirror_u, mirror_p,
    mirror_gamma]
  rw [max_comm j.p i.p]
  ring

theorem ssExp_mirror (i j : PrimitiveState) :
    ssExp (mirror j) (mirror i) = ssExp i j := by
  simp only [ssExp, mirror_gamma]
  rw [min_comm j.gamma i.gamma]

theorem alphaHat_mirror (b : ℝ) (s : PrimitiveState) :
    alphaHat b (mirror s) = alphaHat b s := rfl

theorem ssBase_mirror (b : ℝ) (i j : PrimitiveState) :
    ssBase b (mirror j) (mirror i) = ssBase b i j := by
  simp only [ssBase, ssExp_mirror, alphaHat_mirror, mirror_u, mirror_p]
  ring

theorem p_star_SS_mirror (b : ℝ) (i j : PrimitiveState) :
    p_star_SS_aeos b (mirror j) (mirror i) = p_star_SS_aeos b i j := by
  simp only [p_star_SS_aeos, ssBase_mirror, ssExp_mirror]

theorem compute_lambda_mirror (i j : PrimitiveState) (ps : ℝ) :
    compute_lambda (mirror j) (mirror i) ps = compute_lambda i j ps := by
  have h1 : lambda1_minus (mirror j) ps = -lambda3_plus j ps := by
    simp only [lambda1_minus, lambda3_plus, lambdaFactor, positive_part,
      mirror_u, mirror_p, mirror_gamma, mirror_a]
    ring
  have h3 : lambda3_plus (mirror i) ps = -lambda1_minus i ps := by
    simp only [lambda1_minus, lambda3_plus, lambdaFactor, positive_part,
      mirror_u, mirror_p, mirror_gamma, mirror_a]
    ring
  rw [compute_lambda, h1, h3, compute_lambda]
  simp only [positive_part, negative_part, neg_neg]
  exact max_comm _ _

theorem p_star_RS_mirror_of_lt (b : ℝ) {i j : PrimitiveState}
    (h : i.p < j.p) :
    p_star_RS_aeos b (mirror j) (mirror i) = p_star_RS_aeos b i j := by
  have hgmin : gammaMin (mirror j) (mirror i) = gammaMin i j := by
    simp only [gammaMin, mirror_p, mirror_gamma]
    rw [if_neg (not_lt.mpr h.le), if_pos h]
  have hgmax : gammaMax (mirror j) (mirror i) = gammaMax i j := by
    simp only [gammaMax, mirror_p, mirror_gamma]
    rw [if_pos h.le, if_neg (not_le.mpr h)]
  have hamin : alphaMin b (mirror j) (mirror i) = alphaMin b i j := by
    simp only [alphaMin, mirror_p, mirror_rho, mirror_gamma, mirror_a]
    rw [if_neg (not_lt.mpr h.le), if_pos h]
  have hamax : alphaMax b (mirror j) (mirror i) = alphaMax b i j := by
    simp only [alphaMax, mirror_p, mirror_rho, mirror_gamma, mirror_a]
    rw [if_pos h.le, if_neg (not_le.mpr h)]
  have hexmin : expMin (mirror j) (mirror i) = expMin i j := by
    simp only [expMin, hgmin]
  have hexmax : expMax (mirror j) (mirror i) = expMax i j := by
    simp only [expMax, hgmax]
  have hbase : rsBase b (mirror j) (mirror i) = rsBase b i j := by
    simp only [rsBase, hamax, hamin, hgmin, hexmax, mirror_p, mirror_u]
    rw [min_comm j.p i.p, max_comm j.p i.p]
    ring
  simp only [p_star_RS_aeos, hbase, hexmin, mirror_p]
  rw [min_comm j.p i.p]

theorem p_star_RS_mirror_of_ne (b : ℝ) {i j : PrimitiveState}
    (hne : i.p ≠ j.p) :
    p_star_RS_aeos b (mirror j) (mirror i) = p_star_RS_aeos b i j := by
  rcases lt_or_gt_of_ne hne with h | h
  · exact p_star_RS_mirror_of_lt b h
  · have h2 : (mirror j).p < (mirror i).p := h
    have h3 := p_star_RS_mirror_of_lt b h2
    rw [mirror_mirror, mirror_mirror] at h3
    exact h3.symm

theorem compute_lambda_of_le {i j : PrimitiveState} {q : ℝ} (hpi : 0 < i.p)
    (hpj : 0 < j.p) (hqi : q ≤ i.p) (hqj : q ≤ j.p) :
    compute_lambda i j q =
      max (positive_part (j.u + j.a)) (negative_part (i.u - i.a)) := by
  have hi : positive_part ((q - i.p) / i.p) = 0 :=
    max_eq_right (div_nonpos_of_nonpos_of_nonneg (by linarith) hpi.le)
  have hj : positive_part ((q - j.p) / j.p) = 0 :=
    max_eq_right (div_nonpos_of_nonpos_of_nonneg (by linarith) hpj.le)
  rw [compute_lambda, lambda1_minus, lambda3_plus, hi, hj, mul_zero,
    mul_zero, add_zero, Real.sqrt_one, mul_one, mul_one]

/-! ## Claim theorems (first batch) -/

/-- C2: `RiemannSolver::compute` equals `compute_lambda` at the star
pressure `p_2` selected as `p_star_SS` when `phi_of_p_max < 0` and
`min(max(p_i, p_j), p_star_RS)` otherwise; `compute_lambda` is the
larger of `max(0, lambda3_plus(j, p*))` and `max(0, -lambda1_minus(i, p*))`
with the claimed square-root expressions; and the returned value is
always nonnegative. -/
theorem claim2_compute_structure (b : ℝ) (i j : PrimitiveState) :
    compute b i j =
        compute_lambda i j
          (if phi_of_p_max b i j < 0 then p_star_SS_aeos b i j
           else min (max i.p j.p) (p_star_RS_aeos b i j)) ∧
      (∀ (x y : PrimitiveState) (ps : ℝ),
        compute_lambda x y ps =
          max
            (max 0 (y.u + y.a * Real.sqrt (1 + (y.gamma + 1) / (2 * y.gamma) *
              max 0 ((ps - y.p) / y.p))))
            (max 0 (-(x.u - x.a * Real.sqrt (1 + (x.gamma + 1) / (2 * x.gamma) *
              max 0 ((ps - x.p) / x.p)))))) ∧
      0 ≤ compute b i j := by
  have hmax : ∀ a : ℝ, max a 0 = max 0 a := fun a => max_comm a 0
  refine ⟨rfl, fun x y ps => ?_, ?_⟩
  · simp only [compute_lambda, lambda1_minus, lambda3_plus, positive_part,
      negative_part, lambdaFactor_eq, hmax]
  · simp only [compute, compute_lambda, positive_part, negative_part]
    exact le_trans (le_max_right _ 0) (le_max_left _ _)

/-- C9: for each of the three time-stepping schemes of
`time_integrator.h` the final-stage weights of the fixed Butcher tableau
sum to exactly 1, as exact rational arithmetic:
`ssprk_33`: 1/6 + 1/6 + 2/3 = 1; `erk_33`: 1/4 + 0 + 3/4 = 1;
`erk_43`: 0 + 2/3 - 1/3 + 2/3 = 1. -/
theorem claim9_tableau_weights :
    (finalWeights .ssprk_33).sum = 1 ∧ (finalWeights .erk_33).sum = 1 ∧
      (finalWeights .erk_43).sum = 1 := by
  refine ⟨?_, ?_, ?_⟩ <;> norm_num [finalWeights]

/-- C10: with its default extra parameters `b = 0`, `q = 0`, `pinf = 0`
the `NobleAbleStiffenedGas` pressure oracle degenerates exactly to the
`PolytropicGas` one: for every `rho` and volumetric internal energy
`e_vol` both equal `(gamma - 1) * e_vol`. -/
theorem claim10_nasg_degenerates :
    ∀ (gamma rho e_vol : ℝ),
      NobleAbleStiffenedGas.pressure_oracle ⟨gamma, 0, 0, 0⟩ rho e_vol =
          PolytropicGas.pressure_oracle ⟨gamma⟩ rho e_vol ∧
        NobleAbleStiffenedGas.pressure_oracle ⟨gamma, 0, 0, 0⟩ rho e_vol =
          (gamma - 1) * e_vol := by
  intro gamma rho e_vol
  constructor <;>
    simp [NobleAbleStiffenedGas.pressure_oracle, PolytropicGas.pressure_oracle]

/-- C5 (failing-input evaluation): the two capability operations of
`NobleAbleStiffenedGas` are *not* mutual inverses at fixed `rho`.  With
`gamma = 7/5`, `b = q = pinf = 0`, `rho = 2` and `p = 1` (inside the
physical domain `p > 0`, `1 - b rho > 0`), the round trip
`pressure_oracle (rho, rho * sie_from_rho_p (rho, p))` returns `4`,
not `p = 1`: `sie_from_rho_p` multiplies by `rho` where the inverse
relation requires dividing by it, so the round trip yields `p * rho^2`. -/
theorem claim5_nasg_roundtrip_bug :
    NobleAbleStiffenedGas.pressure_oracle ⟨7 / 5, 0, 0, 0⟩ 2
        (2 * NobleAbleStiffenedGas.sie_from_rho_p ⟨7 / 5, 0, 0, 0⟩ 2 1) = 4 ∧
      (4 : ℝ) ≠ 1 := by
  norm_num [NobleAbleStiffenedGas.pressure_oracle,
    NobleAbleStiffenedGas.sie_from_rho_p]

/-- C3 (counterexample): `RiemannSolver::compute` is *not* total over the
claimed domain `rho > 0, p > 0, a > 0, gamma ≥ 1`: at the concrete
states `(rho, u, p, gamma, a) = (1, 0, 1, 1, 1)` on both sides with
`b_interp = 0`, the denominator `gamma - 1` of `alpha` is zero. -/
theorem claim3_counterexample :
    ¬ (∀ (b : ℝ) (i j : PrimitiveState),
        0 < i.rho → 0 < j.rho → 0 < i.p → 0 < j.p → 0 < i.a → 0 < j.a →
          1 ≤ i.gamma → 1 ≤ j.gamma → ComputeDefined b i j) := by
  intro h
  have h1 := h 0 ⟨1, 0, 1, 1, 1⟩ ⟨1, 0, 1, 1, 1⟩
    (show (0 : ℝ) < 1 by norm_num) (show (0 : ℝ) < 1 by norm_num)
    (show (0 : ℝ) < 1 by norm_num) (show (0 : ℝ) < 1 by norm_num)
    (show (0 : ℝ) < 1 by norm_num) (show (0 : ℝ) < 1 by norm_num)
    (le_refl 1) (le_refl 1)
  exact h1.1.1 (show (1 : ℝ) - 1 = 0 by norm_num)

/-- C3 (amended): `RiemannSolver::compute` is total — every division has
a nonzero denominator, every square root a nonnegative argument and
every power a valid base — over the domain `rho > 0`, `p > 0`, `a > 0`
with *strictly* `gamma > 1` on both sides, a positive covolume factor
`1 - b_interp rho > 0` on both sides, and a nonpositive velocity gap
`u_j - u_i ≤ 0`.  At `gamma = 1` the denominator `gamma - 1` of `alpha`
vanishes (the counterexample), and for a sufficiently large positive
velocity gap the bases of the final star-pressure powers in
`p_star_RS_aeos`/`p_star_SS_aeos` become negative, which machine `pow`
maps to NaN. -/
theorem claim3_totality_amended (b : ℝ) (i j : PrimitiveState)
    (hri : 0 < i.rho) (hrj : 0 < j.rho) (hpi : 0 < i.p) (hpj : 0 < j.p)
    (hai : 0 < i.a) (haj : 0 < j.a) (hgi : 1 < i.gamma) (hgj : 1 < j.gamma)
    (hbi : b * i.rho < 1) (hbj : b * j.rho < 1) (hu : j.u - i.u ≤ 0) :
    ComputeDefined b i j := by
  have hpmax : 0 < max i.p j.p := lt_max_of_lt_left hpi
  have hgmin := one_lt_gammaMin hgi hgj
  have hgmax := one_lt_gammaMax hgi hgj
  have hgm : 1 < min i.gamma j.gamma := lt_min hgi hgj
  have hradi := phiRadicand_pos hri hbi hgi hpi hpmax
  have hradj := phiRadicand_pos hrj hbj hgj hpj hpmax
  refine ⟨⟨sub_ne_zero.mpr (ne_of_gt hgi), sub_ne_zero.mpr (ne_of_gt hgj)⟩,
    ⟨cDefined_of_lt hgi, cDefined_of_lt hgj, cDefined_of_lt hgmin⟩,
    ⟨ne_of_gt (by linarith), ne_of_gt (by linarith), hradi.le, hradj.le,
      ne_of_gt (Real.sqrt_pos.mpr hradi), ne_of_gt (Real.sqrt_pos.mpr hradj)⟩,
    ⟨ne_of_gt hpmax, sub_ne_zero.mpr (ne_of_gt hgmin),
      ne_of_gt (by linarith), Or.inl (div_pos (lt_min hpi hpj) hpmax),
      ne_of_gt (mul_pos (c_pos hgmin)
        (alphaMin_pos hai haj hbi hbj hgi hgj)),
      Or.inl (lt_of_lt_of_le one_pos
        (rsBase_ge_one hpi hpj hai haj hbi hbj hgi hgj hu))⟩,
    ⟨ne_of_gt (by linarith), ne_of_gt (ssExp_pos hgi hgj),
      Or.inl hpi, Or.inl hpj,
      ne_of_gt (add_pos
        (mul_pos (alphaHat_pos hai hbi hgi) (Real.rpow_pos_of_pos hpi _))
        (mul_pos (alphaHat_pos haj hbj hgj) (Real.rpow_pos_of_pos hpj _))),
      Or.inl (ssBase_pos hpi hpj hai haj hbi hbj hgi hgj hu)⟩,
    ⟨ne_of_gt (by linarith), ne_of_gt (by linarith), ne_of_gt hpi,
      ne_of_gt hpj, lambda_radicand_nonneg hgi _,
      lambda_radicand_nonneg hgj _⟩⟩

/-- Witness for C3 (amended): the totality theorem applied at the
concrete states `(1, 0, 1, 2, 1)` on both sides with `b_interp = 0`. -/
theorem claim3_totality_witness :
    ((0 : ℝ) < 1 ∧ (1 : ℝ) < 2 ∧ (0 : ℝ) * 1 < 1 ∧ (0 : ℝ) - 0 ≤ 0) ∧
      ComputeDefined 0 ⟨1, 0, 1, 2, 1⟩ ⟨1, 0, 1, 2, 1⟩ :=
  ⟨⟨by norm_num, by norm_num, by norm_num, by norm_num⟩,
    claim3_totality_amended 0 ⟨1, 0, 1, 2, 1⟩ ⟨1, 0, 1, 2, 1⟩
      (show (0 : ℝ) < 1 by norm_num) (show (0 : ℝ) < 1 by norm_num)
      (show (0 : ℝ) < 1 by norm_num) (show (0 : ℝ) < 1 by norm_num)
      (show (0 : ℝ) < 1 by norm_num) (show (0 : ℝ) < 1 by norm_num)
      (show (1 : ℝ) < 2 by norm_num) (show (1 : ℝ) < 2 by norm_num)
      (show (0 : ℝ) * 1 < 1 by norm_num) (show (0 : ℝ) * 1 < 1 by norm_num)
      (show (0 : ℝ) - 0 ≤ 0 by norm_num)⟩

theorem c_eq_sqrt_on_Ico :
    ∀ x ∈ Set.Ico (5 / 3 : ℝ) 3,
      c x = Real.sqrt ((3 * x + 11) / (6 * (x + 1))) := by
  intro x hx
  rcases le_or_lt x (5 / 3) with h3 | h3
  · have hx53 : x = 5 / 3 := le_antisymm h3 hx.1
    subst hx53
    simp only [c]
    rw [if_neg (by norm_num), if_pos le_rfl,
      show (3 * (5 / 3 : ℝ) + 11) / (6 * ((5 / 3 : ℝ) + 1)) = 1 from by
        norm_num,
      Real.sqrt_one]
  · simp only [c]
    rw [if_neg (by linarith [hx.2]), if_neg (by linarith)]

/-- C4 (counterexample): the correction coefficient `c` of
`RiemannSolver::c` is *not* continuous on `[5/3, 3]`: its value at the
concrete input `gamma = 3` is `sqrt 2 / 2 ≈ 0.707`, while along
`[5/3, 3)` it follows `sqrt ((3 gamma + 11)/(6 (gamma + 1)))`, whose
limit at `3` is `sqrt (5/6) ≈ 0.913`. -/
theorem claim4_discontinuity :
    ¬ ContinuousOn c (Set.Icc (5 / 3 : ℝ) 3) := by
  intro h
  have h3 : ContinuousWithinAt c (Set.Icc (5 / 3 : ℝ) 3) 3 :=
    h 3 (by constructor <;> norm_num)
  have h4 : ContinuousWithinAt c (Set.Ioo (5 / 3 : ℝ) 3) 3 :=
    h3.mono Set.Ioo_subset_Icc_self
  have hc3 : c 3 = 1 / 2 * Real.sqrt 2 := by
    simp only [c]
    rw [if_pos le_rfl]
  have hne : (nhdsWithin (3 : ℝ) (Set.Ioo (5 / 3 : ℝ) 3)).NeBot := by
    apply mem_closure_iff_nhdsWithin_neBot.mp
    rw [closure_Ioo (by norm_num : (5 / 3 : ℝ) ≠ 3)]
    constructor <;> norm_num
  have hcg : ContinuousAt
      (fun x : ℝ => Real.sqrt ((3 * x + 11) / (6 * (x + 1)))) 3 := by
    apply ContinuousAt.sqrt
    exact ContinuousAt.div (by fun_prop) (by fun_prop) (by norm_num)
  have hval3 : Real.sqrt ((3 * (3 : ℝ) + 11) / (6 * ((3 : ℝ) + 1))) =
      Real.sqrt (5 / 6) := by norm_num
  have hg : Filter.Tendsto (fun x : ℝ => Real.sqrt ((3 * x + 11) / (6 * (x + 1))))
      (nhdsWithin (3 : ℝ) (Set.Ioo (5 / 3 : ℝ) 3)) (nhds (Real.sqrt (5 / 6))) := by
    have h0 : Filter.Tendsto
        (fun x : ℝ => Real.sqrt ((3 * x + 11) / (6 * (x + 1))))
        (nhdsWithin (3 : ℝ) (Set.Ioo (5 / 3 : ℝ) 3))
        (nhds (Real.sqrt ((3 * (3 : ℝ) + 11) / (6 * ((3 : ℝ) + 1))))) :=
      hcg.tendsto.mono_left nhdsWithin_le_nhds
    rwa [hval3] at h0
  have hcg2 : Filter.Tendsto c
      (nhdsWithin (3 : ℝ) (Set.Ioo (5 / 3 : ℝ) 3)) (nhds (Real.sqrt (5 / 6))) := by
    apply hg.congr'
    filter_upwards [self_mem_nhdsWithin] with x hx
    exact (c_eq_sqrt_on_Ico x ⟨le_of_lt hx.1, hx.2⟩).symm
  haveI := hne
  have heq : c 3 = Real.sqrt (5 / 6) := tendsto_nhds_unique h4 hcg2
  rw [hc3, sqrt_two_halves] at heq
  have := (Real.sqrt_inj (by norm_num) (by norm_num)).mp heq
  norm_num at this

/-- C4 (amended): the correction coefficient `c` satisfies all the
claimed clamps and values — `c(gamma) = 1` for `gamma ≤ 5/3`,
`c(gamma) = sqrt 2 / 2` for `gamma ≥ 3`,
`c(gamma) = sqrt ((3 gamma + 11)/(6 (gamma + 1)))` strictly in between,
`c(5/3) = 1`, `c(3) = sqrt 2 / 2` — and it is monotone non-increasing
on `[5/3, 3]` and continuous on the half-open interval `[5/3, 3)`; but
it is not continuous at the right endpoint `3` (see the
counterexample), where it jumps down from the limit `sqrt (5/6)` to
`sqrt 2 / 2`. -/
theorem claim4_c_properties :
    (∀ gamma : ℝ, gamma ≤ 5 / 3 → c gamma = 1) ∧
      (∀ gamma : ℝ, 3 ≤ gamma → c gamma = Real.sqrt 2 / 2) ∧
      (∀ gamma : ℝ, 5 / 3 < gamma → gamma < 3 →
        c gamma = Real.sqrt ((3 * gamma + 11) / (6 * (gamma + 1)))) ∧
      c (5 / 3) = 1 ∧
      c 3 = Real.sqrt 2 / 2 ∧
      ContinuousOn c (Set.Ico (5 / 3 : ℝ) 3) ∧
      AntitoneOn c (Set.Icc (5 / 3 : ℝ) 3) := by
  have hone : ∀ gamma : ℝ, gamma ≤ 5 / 3 → c gamma = 1 := by
    intro gamma hg
    simp only [c]
    rw [if_neg (by linarith), if_pos hg]
  have htwo : ∀ gamma : ℝ, 3 ≤ gamma → c gamma = Real.sqrt 2 / 2 := by
    intro gamma hg
    simp only [c]
    rw [if_pos hg]
    ring
  have hmid : ∀ gamma : ℝ, 5 / 3 < gamma → gamma < 3 →
      c gamma = Real.sqrt ((3 * gamma + 11) / (6 * (gamma + 1))) := by
    intro gamma h1 h2
    exact c_eq_sqrt_on_Ico gamma ⟨le_of_lt h1, h2⟩
  have hcont : ContinuousOn c (Set.Ico (5 / 3 : ℝ) 3) := by
    have hg : ContinuousOn
        (fun x : ℝ => Real.sqrt ((3 * x + 11) / (6 * (x + 1))))
        (Set.Ico (5 / 3 : ℝ) 3) := by
      apply ContinuousOn.sqrt
      apply ContinuousOn.div (by fun_prop) (by fun_prop)
      intro x hx
      have h1 := hx.1
      have : (0 : ℝ) < 6 * (x + 1) := by nlinarith
      exact ne_of_gt this
    exact hg.congr c_eq_sqrt_on_Ico
  have hanti : AntitoneOn c (Set.Icc (5 / 3 : ℝ) 3) := by
    intro x hx y hy hxy
    rcases eq_or_lt_of_le hy.2 with hy3 | hy3
    · rcases eq_or_lt_of_le hx.2 with hx3 | hx3
      · rw [hx3, hy3]
      · rw [hy3, htwo 3 le_rfl, c_eq_sqrt_on_Ico x ⟨hx.1, hx3⟩,
          show Real.sqrt 2 / 2 = 1 / 2 * Real.sqrt 2 from by ring,
          sqrt_two_halves]
        apply Real.sqrt_le_sqrt
        have hpos : (0 : ℝ) < 6 * (x + 1) := by nlinarith [hx.1]
        rw [le_div_iff₀ hpos]
        linarith
    · rw [c_eq_sqrt_on_Ico x ⟨hx.1, lt_of_le_of_lt hxy hy3⟩,
        c_eq_sqrt_on_Ico y ⟨hy.1, hy3⟩]
      apply Real.sqrt_le_sqrt
      have hpx : (0 : ℝ) < 6 * (x + 1) := by nlinarith [hx.1]
      have hpy : (0 : ℝ) < 6 * (y + 1) := by nlinarith [hy.1]
      rw [div_le_div_iff₀ hpy hpx]
      nlinarith
  have h53 : c (5 / 3) = 1 := hone (5 / 3) le_rfl
  have h3 : c 3 = Real.sqrt 2 / 2 := htwo 3 le_rfl
  exact ⟨hone, htwo, hmid, h53, h3, hcont, hanti⟩

/-- Witness for C4: the amended theorem applied at the concrete inputs
`gamma = 1`, `gamma = 4` and `gamma = 2`. -/
theorem claim4_c_witness :
    c 1 = 1 ∧ c 4 = Real.sqrt 2 / 2 ∧
      c 2 = Real.sqrt ((3 * 2 + 11) / (6 * (2 + 1))) :=
  ⟨claim4_c_properties.1 1 (by norm_num),
    claim4_c_properties.2.1 4 (by norm_num),
    claim4_c_properties.2.2.1 2 (by norm_num) (by norm_num)⟩

/-- C6: mirror symmetry of `RiemannSolver::compute` over primitive
states (which by the data model carry `p > 0`): `compute(I, J)` equals
`compute(J', I')` where `J'`, `I'` are `J`, `I` with the velocity sign
flipped.  (In the tie case `p_i = p_j` the source's pressure-based
selectors resolve differently under the swap, but the selected star
pressure is then capped at `p_max`, where both lambda bounds lose their
dependence on it.) -/
theorem claim6_mirror_symmetry (b : ℝ) (i j : PrimitiveState)
    (hpi : 0 < i.p) (hpj : 0 < j.p) :
    compute b i j = compute b (mirror j) (mirror i) := by
  simp only [compute, p2, phi_of_p_max_mirror, p_star_SS_mirror,
    compute_lambda_mirror, mirror_p]
  by_cases hphi : phi_of_p_max b i j < 0
  · rw [if_pos hphi, if_pos hphi]
  · rw [if_neg hphi, if_neg hphi, max_comm j.p i.p]
    rcases eq_or_ne i.p j.p with he | hne
    · have hm : max i.p j.p = i.p := by rw [he, max_self]
      have h1 : min (max i.p j.p) (p_star_RS_aeos b i j) ≤ i.p :=
        le_trans (min_le_left _ _) hm.le
      have h2 : min (max i.p j.p) (p_star_RS_aeos b i j) ≤ j.p :=
        le_trans h1 he.le
      have h3 : min (max i.p j.p)
          (p_star_RS_aeos b (mirror j) (mirror i)) ≤ i.p :=
        le_trans (min_le_left _ _) hm.le
      have h4 : min (max i.p j.p)
          (p_star_RS_aeos b (mirror j) (mirror i)) ≤ j.p :=
        le_trans h3 he.le
      rw [compute_lambda_of_le hpi hpj h1 h2,
        compute_lambda_of_le hpi hpj h3 h4]
    · rw [p_star_RS_mirror_of_ne b hne]

/-- Witness for C6: the mirror symmetry applied at the concrete pair
`I = (1, 1, 1, 2, 1)`, `J = (1, 0, 2, 3, 1)` with `b_interp = 0`. -/
theorem claim6_mirror_witness :
    ((0 : ℝ) < 1 ∧ (0 : ℝ) < 2) ∧
      compute 0 ⟨1, 1, 1, 2, 1⟩ ⟨1, 0, 2, 3, 1⟩ =
        compute 0 (mirror ⟨1, 0, 2, 3, 1⟩) (mirror ⟨1, 1, 1, 2, 1⟩) :=
  ⟨⟨by norm_num, by norm_num⟩,
    claim6_mirror_symmetry 0 ⟨1, 1, 1, 2, 1⟩ ⟨1, 0, 2, 3, 1⟩
      (show (0 : ℝ) < 1 by norm_num) (show (0 : ℝ) < 2 by norm_num)⟩

/-- C7: CFL recovery protocol of `TimeIntegrator::step` (modelled from
the spec, the implementation being outside `src/`): under strategy
`none` the `cfl_max` attempt's result is accepted as-is with the
violation merely observable (no retry, no warning, never fatal); under
`bang_bang_control` a reported violation discards all stage results and
restarts the entire multi-stage step from the original `U` at
`cfl_min`, whose result is accepted even if it also reports a violation
(then with a non-fatal warning); the retry granularity is the whole RK
step, never a single stage. -/
theorem claim7_recovery_protocol {σ : Type} (advance : ℝ → σ → StageResult σ)
    (n : ℕ) (cfl_min cfl_max : ℝ) (U : σ) :
    (stepWithRecovery .none advance n cfl_min cfl_max U =
        ⟨(runStep advance cfl_max n U).U,
          (runStep advance cfl_max n U).violated, false⟩) ∧
      ((runStep advance cfl_max n U).violated = true →
        stepWithRecovery .bang_bang_control advance n cfl_min cfl_max U =
          ⟨(runStep advance cfl_min n U).U,
            (runStep advance cfl_min n U).violated,
            (runStep advance cfl_min n U).violated⟩) ∧
      ((runStep advance cfl_max n U).violated = false →
        stepWithRecovery .bang_bang_control advance n cfl_min cfl_max U =
          ⟨(runStep advance cfl_max n U).U, false, false⟩) := by
  refine ⟨rfl, fun h => ?_, fun h => ?_⟩
  · rw [stepWithRecovery]
    simp only [h, if_true]
  · rw [stepWithRecovery]
    simp only [h, Bool.false_eq_true, if_false]

/-- Witness for C7: a stub advance operator that always reports a
violation; with two stages, `bang_bang_control` restarts from the
original state at `cfl_min = 1` and accepts that result. -/
theorem claim7_recovery_witness :
    (runStep (fun _ s => (⟨s + 1, true⟩ : StageResult ℕ)) 2 2 0).violated =
        true ∧
      stepWithRecovery .bang_bang_control
          (fun _ s => (⟨s + 1, true⟩ : StageResult ℕ)) 2 1 2 0 =
        ⟨(runStep (fun _ s => (⟨s + 1, true⟩ : StageResult ℕ)) 1 2 0).U,
          (runStep (fun _ s => (⟨s + 1, true⟩ : StageResult ℕ)) 1 2 0).violated,
          (runStep (fun _ s => (⟨s + 1, true⟩ : StageResult ℕ)) 1 2 0).violated⟩ :=
  ⟨rfl,
    (claim7_recovery_protocol (fun _ s => (⟨s + 1, true⟩ : StageResult ℕ))
        2 1 2 0).2.1 rfl⟩

/-- C8: the two-level wavespeed/extremum reduction of
`Postprocessor::compute` is order- and partition-independent: binary
`max`/`min` are associative and commutative, any two partitions of the
same multiset of per-node values across processes and threads give the
same global result, that result equals the plain fold of `max` (resp.
`min`) over the values with the accumulator's initial value, and — when
the initial value does not dominate (the source seeds the max
accumulators with `0` over nonnegative quantities and the min
accumulators with `infinity`) — it is exactly the maximal (resp.
minimal) element of the values. -/
theorem claim8_reduction_independence {α : Type} [LinearOrder α]
    (seedMax seedMin : α) (vals : List α) (P Q : List (List (List α)))
    (hP : P.flatten.flatten.Perm vals) (hQ : Q.flatten.flatten.Perm vals) :
    (∀ x y z : α, max (max x y) z = max x (max y z)) ∧
      (∀ x y : α, max x y = max y x) ∧
      (∀ x y z : α, min (min x y) z = min x (min y z)) ∧
      (∀ x y : α, min x y = min y x) ∧
      globalMax seedMax P = globalMax seedMax Q ∧
      globalMin seedMin P = globalMin seedMin Q ∧
      globalMax seedMax P = vals.foldl max seedMax ∧
      globalMin seedMin P = vals.foldl min seedMin ∧
      ((∀ x ∈ vals, seedMax ≤ x) → vals ≠ [] →
        globalMax seedMax P ∈ vals ∧ ∀ x ∈ vals, x ≤ globalMax seedMax P) ∧
      ((∀ x ∈ vals, x ≤ seedMin) → vals ≠ [] →
        globalMin seedMin P ∈ vals ∧ ∀ x ∈ vals, globalMin seedMin P ≤ x) := by
  have hPmax : globalMax seedMax P = localMax seedMax vals := by
    rw [globalMax_eq, localMax_perm hP]
  have hQmax : globalMax seedMax Q = localMax seedMax vals := by
    rw [globalMax_eq, localMax_perm hQ]
  have hPmin : globalMin seedMin P = localMin seedMin vals := by
    rw [globalMin_eq, localMin_perm hP]
  have hQmin : globalMin seedMin Q = localMin seedMin vals := by
    rw [globalMin_eq, localMin_perm hQ]
  refine ⟨fun x y z => max_assoc x y z, fun x y => max_comm x y,
    fun x y z => min_assoc x y z, fun x y => min_comm x y,
    hPmax.trans hQmax.symm, hPmin.trans hQmin.symm, hPmax, hPmin,
    fun hseed hne => ⟨?_, fun x hx => hPmax ▸ le_localMax_of_mem vals seedMax x hx⟩,
    fun hseed hne => ⟨?_, fun x hx => hPmin ▸ localMin_le_of_mem vals seedMin x hx⟩⟩
  · rw [hPmax]
    rcases localMax_mem_or vals seedMax with h | h
    · rcases List.exists_mem_of_ne_nil vals hne with ⟨y, hy⟩
      have h1 : y ≤ localMax seedMax vals := le_localMax_of_mem vals seedMax y hy
      have h2 : localMax seedMax vals ≤ y := by rw [h]; exact hseed y hy
      exact (le_antisymm h1 h2) ▸ hy
    · exact h
  · rw [hPmin]
    rcases localMin_mem_or vals seedMin with h | h
    · rcases List.exists_mem_of_ne_nil vals hne with ⟨y, hy⟩
      have h1 : localMin seedMin vals ≤ y := localMin_le_of_mem vals seedMin y hy
      have h2 : y ≤ localMin seedMin vals := by rw [h]; exact hseed y hy
      exact (le_antisymm h2 h1) ▸ hy
    · exact h

/-- Witness for C8: the values `[3, 1, 2]` over `ℕ` with seeds `0` and
`100`, partitioned two different ways across processes and threads. -/
theorem claim8_reduction_witness :
    ([[[3], [1]], [[2]]] : List (List (List ℕ))).flatten.flatten.Perm
        [3, 1, 2] ∧
      ([[[2, 1]], [[3]]] : List (List (List ℕ))).flatten.flatten.Perm
        [3, 1, 2] ∧
      globalMax 0 ([[[3], [1]], [[2]]] : List (List (List ℕ))) =
        globalMax 0 ([[[2, 1]], [[3]]] : List (List (List ℕ))) ∧
      globalMax 0 ([[[3], [1]], [[2]]] : List (List (List ℕ))) =
        [3, 1, 2].foldl max 0 := by
  have h := claim8_reduction_independence (α := ℕ) 0 100 [3, 1, 2]
    [[[3], [1]], [[2]]] [[[2, 1]], [[3]]] (by decide) (by decide)
  exact ⟨by decide, by decide, h.2.2.2.2.1, h.2.2.2.2.2.2.1⟩

end Ryujin
